import Mathlib

/-!
Verification development for the OCR signal-extraction engine of
`mt_signal_search` (`src/io_importers/pdf_importers.py`, with the
delimited-text normalizer of `src/io_importers/csv_importers.py` and the
domain model of `src/domain/models.py`).

Strings are modelled as `List Char` (Unicode scalar values, matching
Python `str` character-wise).  Python's `unicodedata.normalize("NFKC", ·)`
is an external library call; it is modelled as a character-wise
compatibility fold (`nfkcChar`, faithful on the half-width/full-width
folding of the ASCII block and the ideographic space) followed by a
canonical-composition pass (`composePass`) for the pairs whose base
character the operator substitution can produce — `v` is the only
substitution value with canonical compositions (`v`+U+0303 → U+1E7D,
`v`+U+0323 → U+1E7F) — since exactly those pairs decide whether a second
normalization pass changes an already-normalized string.
Every other definition is translated directly from the Python source.
-/

namespace MtSignal

/-- Strings as lists of Unicode scalar values. -/
abbrev Str := List Char

/-- Coerce a Lean string literal to the model's string type. -/
def ofStr (s : String) : Str := s.data

/-- Python whitespace (the set matched by `str.split()` / `str.strip()` /
`re` `\s` on `str` patterns): ASCII whitespace, the C0 separator block
`\x1c`-`\x1f`, NEL, NBSP, and the Unicode space separators. -/
def isPySpace (c : Char) : Bool :=
  c.toNat = 0x20 || c.toNat = 0x09 || c.toNat = 0x0a || c.toNat = 0x0d ||
  c.toNat = 0x0b || c.toNat = 0x0c || c.toNat = 0x1c || c.toNat = 0x1d ||
  c.toNat = 0x1e || c.toNat = 0x1f || c.toNat = 0x85 || c.toNat = 0xa0 ||
  c.toNat = 0x1680 || (0x2000 ≤ c.toNat && c.toNat ≤ 0x200a) ||
  c.toNat = 0x2028 || c.toNat = 0x2029 || c.toNat = 0x202f ||
  c.toNat = 0x205f || c.toNat = 0x3000

/-- The line-boundary characters of Python `str.splitlines`. -/
def isLineBreak (c : Char) : Bool :=
  c.toNat = 0x0a || c.toNat = 0x0d || c.toNat = 0x0b || c.toNat = 0x0c ||
  c.toNat = 0x1c || c.toNat = 0x1d || c.toNat = 0x1e || c.toNat = 0x85 ||
  c.toNat = 0x2028 || c.toNat = 0x2029

/-- Python `str.strip()`: drop whitespace from both ends. -/
def pyStrip (s : Str) : Str :=
  ((s.dropWhile isPySpace).reverse.dropWhile isPySpace).reverse

/-- Helper for `pyWords`: accumulates the current word reversed in `cur`. -/
def wordsAux (cur : Str) : Str → List Str
  | [] => if cur.isEmpty then [] else [cur.reverse]
  | c :: cs =>
    if isPySpace c then
      if cur.isEmpty then wordsAux [] cs else cur.reverse :: wordsAux [] cs
    else wordsAux (c :: cur) cs

/-- Python `str.split()` with no argument: maximal runs of non-whitespace. -/
def pyWords (s : Str) : List Str := wordsAux [] s

/-- Python `" ".join(ws)` (on the result of a split: single-space join). -/
def joinW : List Str → Str
  | [] => []
  | [w] => w
  | w :: ws => w ++ ' ' :: joinW ws

/-- Helper for `pySplitlines`; `cur` holds the current line reversed. -/
def splitlinesAux : Str → Str → List Str
  | cur, [] => if cur.isEmpty then [] else [cur.reverse]
  | cur, '\r' :: '\n' :: cs => cur.reverse :: splitlinesAux [] cs
  | cur, c :: cs =>
    if isLineBreak c then cur.reverse :: splitlinesAux [] cs
    else splitlinesAux (c :: cur) cs

/-- Python `str.splitlines()`: split at line-boundary characters, with
`\r\n` counting as a single boundary; a trailing boundary does not
produce a final empty line. -/
def pySplitlines (s : Str) : List Str := splitlinesAux [] s

/-- Modelled from the Python stdlib: character-wise compatibility
fragment of Unicode NFKC covering the repertoire handled by this parser —
the full-width ASCII-variant block U+FF01–U+FF5E folds to ASCII and the
ideographic space U+3000 folds to a plain space; identity elsewhere. -/
def nfkcChar (c : Char) : Char :=
  if 0xFF01 ≤ c.toNat ∧ c.toNat ≤ 0xFF5E then Char.ofNat (c.toNat - 0xFEE0)
  else if c = '　' then ' '
  else c

/-- Modelled from the Python stdlib: the canonical-composition step of
NFKC, for a base immediately followed by a single composing mark.  Of
the characters the operator substitution can produce (`v`, `^`, `—`,
`+`) only `v` has canonical compositions: `v`+U+0303 → U+1E7D and
`v`+U+0323 → U+1E7F.  (Canonical reordering of longer mark sequences is
not modelled.) -/
def composePass : Str → Str
  | [] => []
  | 'v' :: '\u0303' :: rest => '\u1E7D' :: composePass rest
  | 'v' :: '\u0323' :: rest => '\u1E7F' :: composePass rest
  | c :: rest => c :: composePass rest

/-- NFKC on whole strings: character-wise compatibility fold, then the
modelled canonical-composition pass. -/
def nfkc (s : Str) : Str := composePass (s.map nfkcChar)

/-- `pdf_importers._norm_line`: NFKC then strip (`s or ""` only affects
`None`, which the string model does not represent). -/
def norm_line (s : Str) : Str := pyStrip (nfkc s)

/-- `pdf_importers._normalize_id`: `_norm_line` then `.upper()` (ASCII
uppercasing suffices for the alphanumeric ids this parser produces). -/
def normalize_id (s : Str) : Str := (norm_line s).map Char.toUpper

/-- One single-character `str.replace`: chained single-character replaces
act independently on each character, so a chain is a character-wise fold
over the ordered table. -/
def substOp (c : Char) (p : Char × Char) : Char := if c = p.1 then p.2 else c

/-- The ordered substitution table of `pdf_importers._norm_ops`
(lines 17–31 of `pdf_importers.py`), key/value pairs in program order. -/
def pdfOpsTable : List (Char × Char) :=
  [('∨', 'v'), ('Ｖ', 'v'), ('V', 'v'),
   ('＾', '^'), ('^', '^'),
   ('−', '—'), ('–', '—'), ('―', '—'), ('ー', '—'), ('-', '—'), ('➖', '—'),
   ('＋', '+')]

/-- The ordered substitution table of `csv_importers._norm_expr`
(lines 57–64 of `csv_importers.py`): identical to `pdfOpsTable` except it
lacks the no-op `('^','^')` entry and the `('➖','—')` entry. -/
def csvOpsTable : List (Char × Char) :=
  [('∨', 'v'), ('Ｖ', 'v'), ('V', 'v'),
   ('＾', '^'),
   ('−', '—'), ('–', '—'), ('―', '—'), ('ー', '—'), ('-', '—'),
   ('＋', '+')]

/-- Character image under an ordered substitution table. -/
def substChar (tbl : List (Char × Char)) (c : Char) : Char := tbl.foldl substOp c

/-- Apply an ordered chain of single-character replaces to a string. -/
def applyTable (tbl : List (Char × Char)) (t : Str) : Str := t.map (substChar tbl)

/-- `pdf_importers._norm_ops`: `_norm_line`, the substitution chain, then
`' '.join(t.split())`. -/
def norm_ops (s : Str) : Str := joinW (pyWords (applyTable pdfOpsTable (norm_line s)))

/-- `csv_importers._norm`: same body as `_norm_line` (NFKC + strip). -/
def csv_norm (s : Str) : Str := pyStrip (nfkc s)

/-- `csv_importers._norm_expr`: `_norm`, its substitution chain, then
`" ".join(t.split())`. -/
def norm_expr (s : Str) : Str := joinW (pyWords (applyTable csvOpsTable (csv_norm s)))

/-- `pdf_importers._paren_delta`: running open-minus-close count over both
parenthesis widths. -/
def paren_delta (s : Str) : Int :=
  s.foldl (fun d ch =>
    if ch = '(' ∨ ch = '（' then d + 1
    else if ch = ')' ∨ ch = '）' then d - 1
    else d) 0

/-! ### The three regular expressions of `SimplePDFProcessor.process`

`eq_re`, `qhead_re` and `expr_re` (lines 81–83 of `pdf_importers.py`) are
embedded as deterministic backtracking matchers: each class quantifier
enumerates its possible take-lengths greedily (longest first), nested so
that later quantifiers backtrack first — exactly Python's leftmost-greedy
search order.  `re.match` anchors at the start; the trailing `(.+)$`
matches any non-empty remainder that contains no newline (lines produced
by `splitlines` never contain one). -/

/-- ASCII letter, the Python character class `[A-Za-z]` (codepoint
ranges 0x41–0x5A and 0x61–0x7A). -/
def isReAlpha (c : Char) : Bool :=
  (0x41 ≤ c.toNat && c.toNat ≤ 0x5A) || (0x61 ≤ c.toNat && c.toNat ≤ 0x7A)

/-- ASCII letter or digit, the Python character class `[0-9A-Za-z]`. -/
def isReAlnum (c : Char) : Bool :=
  isReAlpha c || (0x30 ≤ c.toNat && c.toNat ≤ 0x39)

/-- Length of the maximal prefix run of characters satisfying `p`. -/
def runLen (p : Char → Bool) : Str → Nat
  | [] => 0
  | c :: cs => if p c then runLen p cs + 1 else 0

/-- All take-lengths a greedy class quantifier `{lo,hi}` can consume at
the front of `s`, longest first, paired as (consumed, rest). -/
def takeSplits (p : Char → Bool) (lo hi : Nat) (s : Str) : List (Str × Str) :=
  let m := min hi (runLen p s)
  (List.range (m + 1 - lo)).map fun j => (s.take (m - j), s.drop (m - j))

/-- `eq_re = ^\s*([A-Za-z]{1,3})\s*([0-9A-Za-z]+)\s*=\s*(.+)$`,
returning the three groups on success. -/
def eqMatch (s : Str) : Option (Str × Str × Str) :=
  (takeSplits isPySpace 0 s.length s).findSome? fun w1 =>
  (takeSplits isReAlpha 1 3 w1.2).findSome? fun g1 =>
  (takeSplits isPySpace 0 g1.2.length g1.2).findSome? fun w2 =>
  (takeSplits isReAlnum 1 w2.2.length w2.2).findSome? fun g2 =>
  (takeSplits isPySpace 0 g2.2.length g2.2).findSome? fun w3 =>
  match w3.2 with
  | '=' :: r6 =>
    (takeSplits isPySpace 0 r6.length r6).findSome? fun w4 =>
    if w4.2 ≠ [] ∧ '\n' ∉ w4.2 then some (g1.1, g2.1, w4.2) else none
  | _ => none

/-- The separator class `[:：\-–—]` of `qhead_re`. -/
def isQSep (c : Char) : Bool :=
  c = ':' || c = '：' || c = '-' || c = '–' || c = '—'

/-- `qhead_re = ^\s*(Q[0-9A-Za-z]+)\s*[:：\-–—]*\s*(.+)$`,
returning (id group, description group) on success. -/
def qheadMatch (s : Str) : Option (Str × Str) :=
  (takeSplits isPySpace 0 s.length s).findSome? fun w1 =>
  match w1.2 with
  | 'Q' :: r2 =>
    (takeSplits isReAlnum 1 r2.length r2).findSome? fun g1 =>
    (takeSplits isPySpace 0 g1.2.length g1.2).findSome? fun w2 =>
    (takeSplits isQSep 0 w2.2.length w2.2).findSome? fun sp =>
    (takeSplits isPySpace 0 sp.2.length sp.2).findSome? fun w3 =>
    if w3.2 ≠ [] ∧ '\n' ∉ w3.2 then some ('Q' :: g1.1, w3.2) else none
  | _ => none

/-- The character class of `expr_re`:
`[0-9A-Za-z()（）_＿v^!＋+—\-\s]`. -/
def isExprChar (c : Char) : Bool :=
  isReAlnum c || c = '(' || c = ')' || c = '（' || c = '）' || c = '_' ||
  c = '＿' || c = 'v' || c = '^' || c = '!' || c = '＋' || c = '+' ||
  c = '—' || c = '-' || isPySpace c

/-- `expr_re = ^[0-9A-Za-z()（）_＿v^!＋+—\-\s]+$` as a full-line test
(a newline is itself in the class via `\s`, so the `$` nuance is moot). -/
def exprMatch (s : Str) : Bool := !s.isEmpty && s.all isExprChar

/-! ### Domain model (`src/domain/models.py`) -/

/-- `models.SignalType`. -/
inductive SignalType where
  | INPUT | OUTPUT | INTERNAL
deriving DecidableEq, Repr

/-- `models.SignalInfo` (frozen dataclass; field order as in source). -/
structure SignalInfo where
  signal_id : Str
  signal_type : SignalType
  description : Str
  from_box : Str
  via_boxes : List Str
  to_box : Str
  program_address : Str
  logic_group : Str
deriving DecidableEq, Repr

/-! ### The assembler state machine of `SimplePDFProcessor.process` -/

/-- The mutable state during one `process` call: the local variables
`signals`, `seen`, `current_q`, `current_desc`, `buf`, `paren_balance`
(lines 85–90) together with the instance fields `self.logic_blocks` and
`self.warnings`.  `seen` is the Python `set` as an insertion-ordered
list (membership is all the code uses).  `matched` is ghost
instrumentation: it records the normalized id of every equation-line or
header-line match, is only ever appended to, and is read by no other
field's update. -/
structure MState where
  signals : List SignalInfo
  seen : List Str
  current_q : Option Str
  current_desc : Str
  buf : List Str
  paren_balance : Int
  logic_blocks : List (Str × Str)
  warnings : List Str
  matched : List Str
deriving DecidableEq, Repr

/-- Python truthiness of the optional string `current_q`. -/
def optTruthy : Option Str → Bool
  | none => false
  | some q => !q.isEmpty

/-- Python `dict` assignment `d[k] = v`: update in place if the key is
present, else append. -/
def upsert (m : List (Str × Str)) (k v : Str) : List (Str × Str) :=
  if m.any (fun p => p.1 = k) then m.map (fun p => if p.1 = k then (k, v) else p)
  else m ++ [(k, v)]

/-- Association-list lookup (Python `d[k]` / `k in d`). -/
def alookup (m : List (Str × Str)) (k : Str) : Option Str :=
  match m with
  | [] => none
  | p :: r => if p.1 = k then some p.2 else alookup r k

/-- The placeholder description `"(OCR取り込み)"`. -/
def ocrPlaceholder : Str := ofStr "(OCR取り込み)"

/-- The paren-imbalance warning text of line 99 of `pdf_importers.py`
(f-string with the first 60 characters of the expression). -/
def parenWarn (q expr : Str) : Str :=
  q ++ ofStr ": 括弧がうまく読み取れていない可能性: \x27" ++ expr.take 60 ++ ofStr "...\x27"

/-- The record built at lines 117/129 of `pdf_importers.py`:
`SignalInfo(sid, SignalType.OUTPUT, desc, "", tuple(), "", sid, "")`. -/
def mkSignal (sid desc : Str) : SignalInfo :=
  ⟨sid, SignalType.OUTPUT, desc, [], [], [], sid, []⟩

/-- The shared registration fragment
`if sid not in seen: signals.append(...); seen.add(sid)`.
The ghost `matched` list records the id of every match occurrence. -/
def register (st : MState) (sid desc : Str) : MState :=
  let st := { st with matched := st.matched ++ [sid] }
  if sid ∈ st.seen then st
  else { st with signals := st.signals ++ [mkSignal sid desc], seen := st.seen ++ [sid] }

/-- The nested `flush()` closure (lines 92–102): commit the joined,
re-normalized buffer for a truthy `current_q`, warning on paren
imbalance, then reset `buf` and `paren_balance`. -/
def flushF (st : MState) : MState :=
  let st1 :=
    match st.current_q with
    | some q =>
      if q ≠ [] ∧ st.buf ≠ [] then
        let expr := norm_ops (joinW ((st.buf.map pyStrip).filter (· ≠ [])))
        if expr ≠ [] then
          { st with
            warnings :=
              if st.paren_balance ≠ 0 then st.warnings ++ [parenWarn q expr]
              else st.warnings,
            logic_blocks := upsert st.logic_blocks q expr }
        else st
      else st
    | none => st
  { st1 with buf := [], paren_balance := 0 }

/-- One iteration of the `for raw in lines` loop (lines 104–167). -/
def stepLine (st : MState) (raw : Str) : MState :=
  if pyStrip raw = [] then
    if optTruthy st.current_q ∧ st.paren_balance > 0 then st
    else { flushF st with current_q := none, current_desc := [] }
  else
    match eqMatch raw with
    | some (g1, g2, g3) =>
      let st := flushF st
      let sid := normalize_id (g1 ++ g2)
      let rhs := norm_ops (pyStrip g3)
      let st := register st sid ocrPlaceholder
      { st with logic_blocks := upsert st.logic_blocks sid rhs, current_q := none }
    | none =>
    match qheadMatch raw with
    | some (h1, h2) =>
      let st := flushF st
      let q := normalize_id h1
      let d := norm_line h2
      let st := { st with current_q := some q, current_desc := d }
      register st q (if d = [] then ocrPlaceholder else d)
    | none =>
      if optTruthy st.current_q ∧ exprMatch raw then
        { st with buf := st.buf ++ [pyStrip raw],
                  paren_balance := st.paren_balance + paren_delta raw }
      else if optTruthy st.current_q then
        if st.paren_balance > 0 then
          { st with buf := st.buf ++ [pyStrip raw],
                    paren_balance := st.paren_balance + paren_delta raw }
        else
          let st := { flushF st with current_q := none, current_desc := [] }
          match eqMatch raw with
          | some (g1, g2, g3) =>
            let sid := normalize_id (g1 ++ g2)
            let rhs := norm_ops (pyStrip g3)
            let st := register st sid ocrPlaceholder
            { st with logic_blocks := upsert st.logic_blocks sid rhs }
          | none =>
            match qheadMatch raw with
            | some (h1, h2) =>
              let q := normalize_id h1
              let d := norm_line h2
              let st := { st with current_q := some q, current_desc := d }
              register st q (if d = [] then ocrPlaceholder else d)
            | none => st
      else st

/-- The fresh per-call parser state (lines 85–90), over the instance
accumulators carried in from `self`. -/
def initState (lb : List (Str × Str)) (ws : List Str) : MState :=
  { signals := [], seen := [], current_q := none, current_desc := [],
    buf := [], paren_balance := 0, logic_blocks := lb, warnings := ws,
    matched := [] }

/-- The whole line loop followed by the final unconditional `flush()`. -/
def assemble (st0 : MState) (lines : List Str) : MState :=
  flushF (lines.foldl stepLine st0)

/-- Lines handed to the loop:
`text = _norm_ops("\n".join(texts)); lines = [_norm_line(l) for l in text.splitlines()]`. -/
def textLines (texts : List Str) : List Str :=
  (pySplitlines (norm_ops (List.intercalate (ofStr "\n") texts))).map norm_line

/-- The OCR page loop (lines 70–75): poll `cancel_cb` before each page,
break on the first `True`; the page texts are the input (the external
OCR backend is modelled as already applied).  `progress_cb` only sends
UI notifications and does not affect the result, so it is not modelled. -/
def collectPages (cancel : Option (Nat → Bool)) : Nat → List Str → List Str
  | _, [] => []
  | i, p :: ps =>
    match cancel with
    | some cb => if cb i then [] else p :: collectPages cancel (i + 1) ps
    | none => p :: collectPages cancel (i + 1) ps

/-- The instance state of `SimplePDFProcessor` (`__init__`, lines 56–58
initialize both fields empty). -/
structure SimplePDFProcessor where
  logic_blocks : List (Str × Str)
  warnings : List Str
deriving DecidableEq, Repr

/-- The fatal precondition message raised when the OCR modules cannot be
imported (line 66). -/
def ocrMissingMsg : Str :=
  ofStr "OCRモジュール未導入です。\"pip install pdf2image pillow pytesseract\" と Tesseract を導入してください。"

/-- `SimplePDFProcessor.process`: raise if the OCR capability is absent
(`ocrAvailable = false` models the failing `import`), otherwise OCR the
pages (with cancellation polling), normalize, split into lines, run the
assembler, and return the record list; the expression map and warnings
live on the instance. -/
def process (p : SimplePDFProcessor) (ocrAvailable : Bool) (pages : List Str)
    (cancel : Option (Nat → Bool)) :
    Except Str (List SignalInfo × SimplePDFProcessor) :=
  if ocrAvailable then
    let texts := collectPages cancel 0 pages
    let st := assemble (initState p.logic_blocks p.warnings) (textLines texts)
    .ok (st.signals, ⟨st.logic_blocks, st.warnings⟩)
  else .error ocrMissingMsg

/-! ### Character-class facts -/

theorem lineBreak_isPySpace {c : Char} (h : isLineBreak c = true) :
    isPySpace c = true := by
  simp only [isLineBreak, isPySpace, Bool.or_eq_true, Bool.and_eq_true,
    decide_eq_true_eq] at h ⊢
  omega

theorem alnum_not_space {c : Char} (h : isReAlnum c = true) :
    isPySpace c = false := by
  rw [Bool.eq_false_iff]
  simp only [isReAlnum, isReAlpha, isPySpace, ne_eq, Bool.or_eq_true,
    Bool.and_eq_true, decide_eq_true_eq] at h ⊢
  omega

theorem nfkcChar_of_alnum {c : Char} (h : isReAlnum c = true) : nfkcChar c = c := by
  have hb : c.toNat ≤ 0x7A := by
    simp only [isReAlnum, isReAlpha, Bool.or_eq_true, Bool.and_eq_true,
      decide_eq_true_eq] at h
    omega
  unfold nfkcChar
  rw [if_neg (by omega), if_neg ?_]
  intro he
  rw [he] at hb
  exact absurd hb (by decide)

/-! ### `runLen` / `takeSplits` specifications -/

theorem runLen_le (p : Char → Bool) (s : Str) : runLen p s ≤ s.length := by
  induction s with
  | nil => simp [runLen]
  | cons c cs ih =>
    simp only [runLen, List.length_cons]
    by_cases h : p c
    · rw [if_pos h]; omega
    · rw [if_neg h]; omega

theorem all_take_of_le_runLen (p : Char → Bool) :
    ∀ (s : Str) (i : Nat), i ≤ runLen p s → ∀ c ∈ s.take i, p c = true := by
  intro s
  induction s with
  | nil => intro i _ c hc; simp at hc
  | cons a cs ih =>
    intro i hi c hc
    cases i with
    | zero => simp at hc
    | succ k =>
      simp only [runLen] at hi
      by_cases h : p a
      · rw [if_pos h] at hi
        simp only [List.take_succ_cons, List.mem_cons] at hc
        rcases hc with rfl | hc
        · exact h
        · exact ih k (by omega) c hc
      · rw [if_neg h] at hi; omega

theorem takeSplits_spec {p : Char → Bool} {lo hi : Nat} {s : Str}
    {q : Str × Str} (h : q ∈ takeSplits p lo hi s) :
    q.1 ++ q.2 = s ∧ lo ≤ q.1.length ∧ ∀ c ∈ q.1, p c = true := by
  simp only [takeSplits, List.mem_map, List.mem_range] at h
  obtain ⟨j, hj, he⟩ := h
  have hm : min hi (runLen p s) ≤ runLen p s := Nat.min_le_right ..
  have hlen : runLen p s ≤ s.length := runLen_le p s
  subst he
  refine ⟨List.take_append_drop .., ?_, ?_⟩
  · rw [List.length_take]; omega
  · exact all_take_of_le_runLen p s _ (by omega)

theorem exists_of_findSome?_some {α β : Type} {l : List α} {f : α → Option β}
    {b : β} (h : l.findSome? f = some b) : ∃ a ∈ l, f a = some b := by
  induction l with
  | nil => simp [List.findSome?] at h
  | cons x xs ih =>
    cases hfx : f x with
    | some y =>
      rw [List.findSome?_cons, hfx] at h
      exact ⟨x, List.mem_cons_self .., by rw [hfx]; exact h⟩
    | none =>
      rw [List.findSome?_cons, hfx] at h
      obtain ⟨a, ha, hfa⟩ := ih h
      exact ⟨a, List.mem_cons_of_mem _ ha, hfa⟩

/-! ### Shapes of the matcher groups -/

theorem eqMatch_groups {s g1 g2 g3 : Str} (h : eqMatch s = some (g1, g2, g3)) :
    (g1 ≠ [] ∧ ∀ c ∈ g1, isReAlpha c = true) ∧
    (g2 ≠ [] ∧ ∀ c ∈ g2, isReAlnum c = true) := by
  unfold eqMatch at h
  obtain ⟨w1, _, h⟩ := exists_of_findSome?_some h
  obtain ⟨p1, hp1, h⟩ := exists_of_findSome?_some h
  obtain ⟨w2, _, h⟩ := exists_of_findSome?_some h
  obtain ⟨p2, hp2, h⟩ := exists_of_findSome?_some h
  obtain ⟨w3, _, h⟩ := exists_of_findSome?_some h
  obtain ⟨-, hl1, ha1⟩ := takeSplits_spec hp1
  obtain ⟨-, hl2, ha2⟩ := takeSplits_spec hp2
  split at h
  · obtain ⟨w4, _, h⟩ := exists_of_findSome?_some h
    split at h
    · simp only [Option.some.injEq, Prod.mk.injEq] at h
      obtain ⟨he1, he2, he3⟩ := h
      subst he1; subst he2
      refine ⟨⟨?_, ha1⟩, ?_, ha2⟩
      · intro hn; rw [hn] at hl1; simp at hl1
      · intro hn; rw [hn] at hl2; simp at hl2
    · cases h
  · cases h

theorem qheadMatch_groups {s h1 h2 : Str} (h : qheadMatch s = some (h1, h2)) :
    h1 ≠ [] ∧ ∀ c ∈ h1, isReAlnum c = true := by
  unfold qheadMatch at h
  obtain ⟨w1, _, h⟩ := exists_of_findSome?_some h
  split at h
  case h_2 => cases h
  case h_1 r2 heq =>
    obtain ⟨p1, hp1, h⟩ := exists_of_findSome?_some h
    obtain ⟨w2, _, h⟩ := exists_of_findSome?_some h
    obtain ⟨sp, _, h⟩ := exists_of_findSome?_some h
    obtain ⟨w3, _, h⟩ := exists_of_findSome?_some h
    obtain ⟨-, -, ha1⟩ := takeSplits_spec hp1
    split at h
    · simp only [Option.some.injEq, Prod.mk.injEq] at h
      obtain ⟨he1, he2⟩ := h
      subst he1
      refine ⟨by simp, ?_⟩
      intro c hc
      rcases List.mem_cons.mp hc with rfl | hc
      · decide
      · exact ha1 c hc
    · cases h

/-! ### Non-emptiness of normalized ids -/

theorem map_eq_self_of {f : Char → Char} {l : Str} (h : ∀ c ∈ l, f c = c) :
    l.map f = l := by
  induction l with
  | nil => rfl
  | cons c cs ih =>
    simp only [List.map_cons, h c (List.mem_cons_self ..),
      ih fun a ha => h a (List.mem_cons_of_mem _ ha)]

theorem dropWhile_eq_self_of {p : Char → Bool} :
    ∀ {s : Str}, (∀ c ∈ s, p c = false) → s.dropWhile p = s
  | [], _ => rfl
  | c :: cs, h => by
    rw [List.dropWhile_cons, if_neg]
    simp [h c (List.mem_cons_self ..)]

theorem pyStrip_eq_self {s : Str} (h : ∀ c ∈ s, isPySpace c = false) :
    pyStrip s = s := by
  unfold pyStrip
  rw [dropWhile_eq_self_of h,
    dropWhile_eq_self_of fun c hc => h c (List.mem_reverse.mp hc),
    List.reverse_reverse]

/-! ### Facts about the composition pass -/

theorem composePass_singleton (a : Char) : composePass [a] = [a] := by
  rw [composePass.eq_def]
  split
  · rename_i heq
    simp at heq
  · rename_i heq
    injection heq with h3 h4
    simp at h4
  · rename_i heq
    injection heq with h3 h4
    simp at h4
  · rename_i h1 h2 heq
    injection heq with h3 h4
    subst h3
    subst h4
    rfl

theorem composePass_cons₂ {a b : Char} {rest : Str}
    (h1 : ¬(a = 'v' ∧ b = '\u0303')) (h2 : ¬(a = 'v' ∧ b = '\u0323')) :
    composePass (a :: b :: rest) = a :: composePass (b :: rest) := by
  rw [composePass.eq_def]
  split
  · rename_i heq
    simp at heq
  · rename_i heq
    injection heq with h3 h4
    injection h4 with h5 h6
    exact absurd ⟨h3, h5⟩ h1
  · rename_i heq
    injection heq with h3 h4
    injection h4 with h5 h6
    exact absurd ⟨h3, h5⟩ h2
  · rename_i hg1 hg2 heq
    injection heq with h3 h4
    subst h3
    subst h4
    rfl

theorem composePass_no_marks :
    ∀ s : Str, (∀ c ∈ s, ¬(c = '\u0303' ∨ c = '\u0323')) →
      composePass s = s := by
  intro s
  induction s with
  | nil => intro _; rfl
  | cons a as ih =>
    intro h
    cases as with
    | nil => exact composePass_singleton a
    | cons b rest =>
      have hb := h b (List.mem_cons_of_mem _ (List.mem_cons_self ..))
      rw [composePass_cons₂ (fun hc => hb (Or.inl hc.2))
          (fun hc => hb (Or.inr hc.2)),
        ih fun c hc => h c (List.mem_cons_of_mem _ hc)]

theorem mem_composePass_aux :
    ∀ (n : Nat) (s : Str), s.length ≤ n → ∀ c ∈ composePass s,
      c ∈ s ∨ c = '\u1E7D' ∨ c = '\u1E7F' := by
  intro n
  induction n with
  | zero =>
    intro s hs c hc
    have h0 : s = [] := List.length_eq_zero.mp (Nat.le_zero.mp hs)
    subst h0
    simp [composePass] at hc
  | succ n ih =>
    intro s hs c hc
    match s, hs, hc with
    | [], _, hc => simp [composePass] at hc
    | [a], _, hc =>
      rw [composePass_singleton] at hc
      exact Or.inl hc
    | a :: b :: rest, hs, hc =>
      by_cases h1 : a = 'v' ∧ b = '\u0303'
      · obtain ⟨rfl, rfl⟩ := h1
        rw [show composePass ('v' :: '\u0303' :: rest) =
            '\u1E7D' :: composePass rest from rfl] at hc
        rcases List.mem_cons.mp hc with rfl | hc
        · exact Or.inr (Or.inl rfl)
        · rcases ih rest (by simp only [List.length_cons] at hs ⊢; omega) c hc with
            h | h
          · exact Or.inl (List.mem_cons_of_mem _ (List.mem_cons_of_mem _ h))
          · exact Or.inr h
      · by_cases h2 : a = 'v' ∧ b = '\u0323'
        · obtain ⟨rfl, rfl⟩ := h2
          rw [show composePass ('v' :: '\u0323' :: rest) =
              '\u1E7F' :: composePass rest from rfl] at hc
          rcases List.mem_cons.mp hc with rfl | hc
          · exact Or.inr (Or.inr rfl)
          · rcases ih rest (by simp only [List.length_cons] at hs ⊢; omega) c hc with
              h | h
            · exact Or.inl (List.mem_cons_of_mem _ (List.mem_cons_of_mem _ h))
            · exact Or.inr h
        · rw [composePass_cons₂ h1 h2] at hc
          rcases List.mem_cons.mp hc with rfl | hc
          · exact Or.inl (List.mem_cons_self ..)
          · rcases ih (b :: rest)
              (by simp only [List.length_cons] at hs ⊢; omega) c hc with h | h
            · exact Or.inl (List.mem_cons_of_mem _ h)
            · exact Or.inr h

theorem mem_composePass {s : Str} {c : Char} (h : c ∈ composePass s) :
    c ∈ s ∨ c = '\u1E7D' ∨ c = '\u1E7F' :=
  mem_composePass_aux s.length s le_rfl c h

theorem alnum_not_mark {c : Char} (h : isReAlnum c = true) :
    ¬(c = '\u0303' ∨ c = '\u0323') := by
  rintro (rfl | rfl) <;> exact absurd h (by decide)

theorem normalize_id_of_alnum {l : Str} (h : ∀ c ∈ l, isReAlnum c = true) :
    normalize_id l = l.map Char.toUpper := by
  unfold normalize_id norm_line nfkc
  rw [map_eq_self_of fun c hc => nfkcChar_of_alnum (h c hc),
    composePass_no_marks l fun c hc => alnum_not_mark (h c hc),
    pyStrip_eq_self fun c hc => alnum_not_space (h c hc)]

theorem normalize_id_ne_nil {l : Str} (h0 : l ≠ [])
    (h : ∀ c ∈ l, isReAlnum c = true) : normalize_id l ≠ [] := by
  rw [normalize_id_of_alnum h]
  simpa using h0

/-! ### Facts about `pyWords` and `joinW` -/

theorem wordsAux_spec :
    ∀ (s cur : Str), (∀ c ∈ cur, isPySpace c = false) →
      ∀ w ∈ wordsAux cur s,
        w ≠ [] ∧ ∀ c ∈ w, isPySpace c = false ∧ (c ∈ cur ∨ c ∈ s) := by
  intro s
  induction s with
  | nil =>
    intro cur hcur w hw
    unfold wordsAux at hw
    split at hw
    · simp at hw
    · rename_i hne
      rw [List.mem_singleton] at hw
      subst hw
      refine ⟨fun hn => hne ?_, fun c hc =>
        ⟨hcur c (List.mem_reverse.mp hc), Or.inl (List.mem_reverse.mp hc)⟩⟩
      rw [List.isEmpty_iff, ← List.reverse_eq_nil_iff, hn]
  | cons a as ih =>
    intro cur hcur w hw
    unfold wordsAux at hw
    by_cases ha : isPySpace a = true
    · rw [if_pos ha] at hw
      by_cases hce : cur.isEmpty = true
      · rw [if_pos hce] at hw
        obtain ⟨h1, h2⟩ := ih [] (by simp) w hw
        exact ⟨h1, fun c hc => ⟨(h2 c hc).1, Or.inr (List.mem_cons_of_mem _
          (((h2 c hc).2).resolve_left (List.not_mem_nil c)))⟩⟩
      · rw [if_neg hce] at hw
        rcases List.mem_cons.mp hw with rfl | hw
        · refine ⟨fun hn => hce ?_, fun c hc =>
            ⟨hcur c (List.mem_reverse.mp hc), Or.inl (List.mem_reverse.mp hc)⟩⟩
          rw [List.isEmpty_iff, ← List.reverse_eq_nil_iff, hn]
        · obtain ⟨h1, h2⟩ := ih [] (by simp) w hw
          exact ⟨h1, fun c hc => ⟨(h2 c hc).1, Or.inr (List.mem_cons_of_mem _
            (((h2 c hc).2).resolve_left (List.not_mem_nil c)))⟩⟩
    · rw [if_neg ha] at hw
      have hcur' : ∀ c ∈ a :: cur, isPySpace c = false := by
        intro c hc
        rcases List.mem_cons.mp hc with rfl | hc
        · simpa using ha
        · exact hcur c hc
      obtain ⟨h1, h2⟩ := ih (a :: cur) hcur' w hw
      refine ⟨h1, fun c hc => ⟨(h2 c hc).1, ?_⟩⟩
      rcases (h2 c hc).2 with hc2 | hc2
      · rcases List.mem_cons.mp hc2 with rfl | hc2
        · exact Or.inr (List.mem_cons_self ..)
        · exact Or.inl hc2
      · exact Or.inr (List.mem_cons_of_mem _ hc2)

theorem pyWords_spec {s : Str} :
    ∀ w ∈ pyWords s, w ≠ [] ∧ ∀ c ∈ w, isPySpace c = false ∧ c ∈ s := by
  intro w hw
  obtain ⟨h1, h2⟩ := wordsAux_spec s [] (by simp) w hw
  exact ⟨h1, fun c hc =>
    ⟨(h2 c hc).1, ((h2 c hc).2).resolve_left (List.not_mem_nil c)⟩⟩

theorem joinW_mem {ws : List Str} {c : Char} (h : c ∈ joinW ws) :
    c = ' ' ∨ ∃ w ∈ ws, c ∈ w := by
  induction ws with
  | nil => simp [joinW] at h
  | cons w ws ih =>
    cases ws with
    | nil => exact Or.inr ⟨w, List.mem_cons_self .., by simpa [joinW] using h⟩
    | cons w2 ws2 =>
      rw [show joinW (w :: w2 :: ws2) = w ++ ' ' :: joinW (w2 :: ws2) from rfl] at h
      rcases List.mem_append.mp h with hc | hc
      · exact Or.inr ⟨w, List.mem_cons_self .., hc⟩
      · rcases List.mem_cons.mp hc with rfl | hc
        · exact Or.inl rfl
        · rcases ih hc with h' | ⟨w', hw', hc'⟩
          · exact Or.inl h'
          · exact Or.inr ⟨w', List.mem_cons_of_mem _ hw', hc'⟩

theorem wordsAux_word_prefix :
    ∀ (w : Str), (∀ c ∈ w, isPySpace c = false) →
      ∀ (cur t : Str), wordsAux cur (w ++ t) = wordsAux (w.reverse ++ cur) t := by
  intro w
  induction w with
  | nil => intro _ cur t; simp
  | cons a ws ih =>
    intro h cur t
    rw [List.cons_append]
    have ha : ¬(isPySpace a = true) := by
      simp [h a (List.mem_cons_self ..)]
    simp only [wordsAux, if_neg ha]
    rw [ih (fun c hc => h c (List.mem_cons_of_mem _ hc)) (a :: cur) t]
    simp [List.append_assoc]

theorem wordsAux_all_space :
    ∀ (sp cur : Str), (∀ c ∈ sp, isPySpace c = true) →
      wordsAux cur sp = if cur.isEmpty then [] else [cur.reverse] := by
  intro sp
  induction sp with
  | nil => intro cur _; rfl
  | cons a as ih =>
    intro cur h
    simp only [wordsAux, if_pos (h a (List.mem_cons_self ..))]
    by_cases hce : cur.isEmpty = true
    · rw [if_pos hce, ih [] fun c hc => h c (List.mem_cons_of_mem _ hc),
        if_pos hce]
      rfl
    · rw [if_neg hce, ih [] fun c hc => h c (List.mem_cons_of_mem _ hc),
        if_neg hce]
      rfl

theorem wordsAux_trailing (sp : Str) (hsp : ∀ c ∈ sp, isPySpace c = true) :
    ∀ (t cur : Str), wordsAux cur (t ++ sp) = wordsAux cur t := by
  intro t
  induction t with
  | nil =>
    intro cur
    rw [List.nil_append, wordsAux_all_space sp cur hsp]
    rfl
  | cons a as ih =>
    intro cur
    rw [List.cons_append]
    by_cases ha : isPySpace a = true
    · simp only [wordsAux, if_pos ha]
      by_cases hce : cur.isEmpty = true
      · rw [if_pos hce, if_pos hce, ih]
      · rw [if_neg hce, if_neg hce, ih]
    · simp only [wordsAux, if_neg ha]
      rw [ih]

theorem wordsAux_dropWhile (s : Str) :
    wordsAux [] (s.dropWhile isPySpace) = wordsAux [] s := by
  induction s with
  | nil => rfl
  | cons a as ih =>
    by_cases ha : isPySpace a = true
    · rw [List.dropWhile_cons, if_pos ha, ih]
      simp [wordsAux, if_pos ha]
    · rw [List.dropWhile_cons, if_neg ha]

theorem mem_takeWhile_space :
    ∀ (l : Str), ∀ c ∈ l.takeWhile isPySpace, isPySpace c = true := by
  intro l
  induction l with
  | nil => intro c hc; simp at hc
  | cons a as ih =>
    intro c hc
    rw [List.takeWhile_cons] at hc
    by_cases ha : isPySpace a = true
    · rw [if_pos ha] at hc
      rcases List.mem_cons.mp hc with rfl | hc
      · exact ha
      · exact ih c hc
    · rw [if_neg ha] at hc; simp at hc

theorem pyWords_pyStrip (s : Str) : pyWords (pyStrip s) = pyWords s := by
  unfold pyWords pyStrip
  have h1 : wordsAux [] (s.dropWhile isPySpace) = wordsAux [] s :=
    wordsAux_dropWhile s
  set s1 := s.dropWhile isPySpace with hs1
  have hdec : s1 = (s1.reverse.dropWhile isPySpace).reverse ++
      (s1.reverse.takeWhile isPySpace).reverse := by
    conv_lhs => rw [← List.reverse_reverse s1,
      ← List.takeWhile_append_dropWhile (p := isPySpace) (l := s1.reverse)]
    rw [List.reverse_append]
  rw [← h1]
  conv_rhs => rw [hdec]
  rw [wordsAux_trailing _ (fun c hc => mem_takeWhile_space _ c
    (List.mem_reverse.mp hc)) _ []]

theorem pyWords_joinW {ws : List Str}
    (h : ∀ w ∈ ws, w ≠ [] ∧ ∀ c ∈ w, isPySpace c = false) :
    pyWords (joinW ws) = ws := by
  induction ws with
  | nil => rfl
  | cons w ws ih =>
    obtain ⟨h1, h2⟩ := h w (List.mem_cons_self ..)
    have hne : ¬(w.reverse.isEmpty = true) := by
      rw [List.isEmpty_iff, List.reverse_eq_nil_iff]
      exact h1
    cases ws with
    | nil =>
      show wordsAux [] (joinW [w]) = [w]
      have hp := wordsAux_word_prefix w h2 [] []
      simp only [List.append_nil] at hp
      rw [show joinW [w] = w from rfl, hp]
      simp only [wordsAux, if_neg hne]
      rw [List.reverse_reverse]
    | cons w2 ws2 =>
      show wordsAux [] (joinW (w :: w2 :: ws2)) = w :: w2 :: ws2
      have hp := wordsAux_word_prefix w h2 [] (' ' :: joinW (w2 :: ws2))
      simp only [List.append_nil] at hp
      rw [show joinW (w :: w2 :: ws2) = w ++ ' ' :: joinW (w2 :: ws2) from rfl,
        hp]
      simp only [wordsAux, if_pos (show isPySpace ' ' = true by decide),
        if_neg hne]
      rw [List.reverse_reverse]
      exact congrArg _ (ih fun x hx => h x (List.mem_cons_of_mem _ hx))

/-! ### Idempotence facts for the character maps -/

theorem char_ofNat_toNat {n : Nat} (h1 : 0x21 ≤ n) (h2 : n ≤ 0x7E) :
    (Char.ofNat n).toNat = n := by
  unfold Char.ofNat
  rw [dif_pos (Or.inl (by omega))]
  rfl

theorem nfkcChar_idem (c : Char) : nfkcChar (nfkcChar c) = nfkcChar c := by
  by_cases h1 : 0xFF01 ≤ c.toNat ∧ c.toNat ≤ 0xFF5E
  · have hd : nfkcChar c = Char.ofNat (c.toNat - 0xFEE0) := by
      rw [nfkcChar, if_pos h1]
    have ht : (Char.ofNat (c.toNat - 0xFEE0)).toNat = c.toNat - 0xFEE0 :=
      char_ofNat_toNat (by omega) (by omega)
    have hv : ('　' : Char).toNat = 0x3000 := by decide
    rw [hd, nfkcChar, ht, if_neg (by omega), if_neg ?_]
    intro he
    rw [he, hv] at ht
    omega
  · by_cases h2 : c = '　'
    · subst h2; decide
    · have hd : nfkcChar c = c := by rw [nfkcChar, if_neg h1, if_neg h2]
      rw [hd, hd]

theorem substChar_pdf_not_key {c : Char}
    (k1 : c ≠ '∨') (k2 : c ≠ 'Ｖ') (k3 : c ≠ 'V') (k4 : c ≠ '＾') (k5 : c ≠ '^')
    (k6 : c ≠ '−') (k7 : c ≠ '–') (k8 : c ≠ '―') (k9 : c ≠ 'ー') (k10 : c ≠ '-')
    (k11 : c ≠ '➖') (k12 : c ≠ '＋') :
    substChar pdfOpsTable c = c := by
  unfold substChar pdfOpsTable
  rw [List.foldl_cons, show substOp c ('∨', 'v') = c from if_neg k1,
    List.foldl_cons, show substOp c ('Ｖ', 'v') = c from if_neg k2,
    List.foldl_cons, show substOp c ('V', 'v') = c from if_neg k3,
    List.foldl_cons, show substOp c ('＾', '^') = c from if_neg k4,
    List.foldl_cons, show substOp c ('^', '^') = c from if_neg k5,
    List.foldl_cons, show substOp c ('−', '—') = c from if_neg k6,
    List.foldl_cons, show substOp c ('–', '—') = c from if_neg k7,
    List.foldl_cons, show substOp c ('―', '—') = c from if_neg k8,
    List.foldl_cons, show substOp c ('ー', '—') = c from if_neg k9,
    List.foldl_cons, show substOp c ('-', '—') = c from if_neg k10,
    List.foldl_cons, show substOp c ('➖', '—') = c from if_neg k11,
    List.foldl_cons, show substOp c ('＋', '+') = c from if_neg k12,
    List.foldl_nil]

theorem substChar_csv_not_key {c : Char}
    (k1 : c ≠ '∨') (k2 : c ≠ 'Ｖ') (k3 : c ≠ 'V') (k4 : c ≠ '＾')
    (k6 : c ≠ '−') (k7 : c ≠ '–') (k8 : c ≠ '―') (k9 : c ≠ 'ー') (k10 : c ≠ '-')
    (k12 : c ≠ '＋') :
    substChar csvOpsTable c = c := by
  unfold substChar csvOpsTable
  rw [List.foldl_cons, show substOp c ('∨', 'v') = c from if_neg k1,
    List.foldl_cons, show substOp c ('Ｖ', 'v') = c from if_neg k2,
    List.foldl_cons, show substOp c ('V', 'v') = c from if_neg k3,
    List.foldl_cons, show substOp c ('＾', '^') = c from if_neg k4,
    List.foldl_cons, show substOp c ('−', '—') = c from if_neg k6,
    List.foldl_cons, show substOp c ('–', '—') = c from if_neg k7,
    List.foldl_cons, show substOp c ('―', '—') = c from if_neg k8,
    List.foldl_cons, show substOp c ('ー', '—') = c from if_neg k9,
    List.foldl_cons, show substOp c ('-', '—') = c from if_neg k10,
    List.foldl_cons, show substOp c ('＋', '+') = c from if_neg k12,
    List.foldl_nil]

theorem substChar_pdf_idem (c : Char) :
    substChar pdfOpsTable (substChar pdfOpsTable c) = substChar pdfOpsTable c := by
  by_cases k1 : c = '∨'; · subst k1; rfl
  by_cases k2 : c = 'Ｖ'; · subst k2; rfl
  by_cases k3 : c = 'V'; · subst k3; rfl
  by_cases k4 : c = '＾'; · subst k4; rfl
  by_cases k5 : c = '^'; · subst k5; rfl
  by_cases k6 : c = '−'; · subst k6; rfl
  by_cases k7 : c = '–'; · subst k7; rfl
  by_cases k8 : c = '―'; · subst k8; rfl
  by_cases k9 : c = 'ー'; · subst k9; rfl
  by_cases k10 : c = '-'; · subst k10; rfl
  by_cases k11 : c = '➖'; · subst k11; rfl
  by_cases k12 : c = '＋'; · subst k12; rfl
  rw [substChar_pdf_not_key k1 k2 k3 k4 k5 k6 k7 k8 k9 k10 k11 k12]
  exact substChar_pdf_not_key k1 k2 k3 k4 k5 k6 k7 k8 k9 k10 k11 k12

theorem nfkcChar_fix_subst {d : Char} (h : nfkcChar d = d) :
    nfkcChar (substChar pdfOpsTable d) = substChar pdfOpsTable d := by
  by_cases k1 : d = '∨'; · subst k1; rfl
  by_cases k2 : d = 'Ｖ'; · subst k2; rfl
  by_cases k3 : d = 'V'; · subst k3; rfl
  by_cases k4 : d = '＾'; · subst k4; rfl
  by_cases k5 : d = '^'; · subst k5; rfl
  by_cases k6 : d = '−'; · subst k6; rfl
  by_cases k7 : d = '–'; · subst k7; rfl
  by_cases k8 : d = '―'; · subst k8; rfl
  by_cases k9 : d = 'ー'; · subst k9; rfl
  by_cases k10 : d = '-'; · subst k10; rfl
  by_cases k11 : d = '➖'; · subst k11; rfl
  by_cases k12 : d = '＋'; · subst k12; rfl
  rw [substChar_pdf_not_key k1 k2 k3 k4 k5 k6 k7 k8 k9 k10 k11 k12]
  exact h

theorem substChar_pdf_csv_agree {c : Char} (h : c ≠ '➖') :
    substChar csvOpsTable c = substChar pdfOpsTable c := by
  by_cases k1 : c = '∨'; · subst k1; rfl
  by_cases k2 : c = 'Ｖ'; · subst k2; rfl
  by_cases k3 : c = 'V'; · subst k3; rfl
  by_cases k4 : c = '＾'; · subst k4; rfl
  by_cases k5 : c = '^'; · subst k5; rfl
  by_cases k6 : c = '−'; · subst k6; rfl
  by_cases k7 : c = '–'; · subst k7; rfl
  by_cases k8 : c = '―'; · subst k8; rfl
  by_cases k9 : c = 'ー'; · subst k9; rfl
  by_cases k10 : c = '-'; · subst k10; rfl
  by_cases k12 : c = '＋'; · subst k12; rfl
  rw [substChar_pdf_not_key k1 k2 k3 k4 k5 k6 k7 k8 k9 k10 h k12,
    substChar_csv_not_key k1 k2 k3 k4 k6 k7 k8 k9 k10 k12]

/-! ### The idempotence of `norm_ops` -/

theorem substOp_apply (c : Char) (p : Char × Char) :
    substOp c p = if c = p.1 then p.2 else c := rfl

theorem mem_pyStrip {s : Str} {c : Char} (h : c ∈ pyStrip s) : c ∈ s := by
  unfold pyStrip at h
  rw [List.mem_reverse] at h
  have h2 := (List.dropWhile_sublist (p := isPySpace)).subset h
  rw [List.mem_reverse] at h2
  exact (List.dropWhile_sublist (p := isPySpace)).subset h2

theorem nfkcChar_not_mark {c : Char} (h : ¬(c = '\u0303' ∨ c = '\u0323')) :
    ¬(nfkcChar c = '\u0303' ∨ nfkcChar c = '\u0323') := by
  by_cases h1 : 0xFF01 ≤ c.toNat ∧ c.toNat ≤ 0xFF5E
  · rw [nfkcChar, if_pos h1]
    have ht := char_ofNat_toNat (n := c.toNat - 0xFEE0) (by omega) (by omega)
    rintro (he | he) <;> rw [he] at ht
    · rw [show ('\u0303' : Char).toNat = 0x303 from by decide] at ht
      omega
    · rw [show ('\u0323' : Char).toNat = 0x323 from by decide] at ht
      omega
  · by_cases h2 : c = '　'
    · subst h2
      rw [show nfkcChar '　' = ' ' from by decide]
      decide
    · rwa [nfkcChar, if_neg h1, if_neg h2]

theorem substChar_pdf_not_mark {d : Char}
    (h : ¬(d = '\u0303' ∨ d = '\u0323')) :
    ¬(substChar pdfOpsTable d = '\u0303' ∨
      substChar pdfOpsTable d = '\u0323') := by
  by_cases k1 : d = '∨'
  · subst k1; rw [show substChar pdfOpsTable '∨' = 'v' from rfl]; decide
  by_cases k2 : d = 'Ｖ'
  · subst k2; rw [show substChar pdfOpsTable 'Ｖ' = 'v' from rfl]; decide
  by_cases k3 : d = 'V'
  · subst k3; rw [show substChar pdfOpsTable 'V' = 'v' from rfl]; decide
  by_cases k4 : d = '＾'
  · subst k4; rw [show substChar pdfOpsTable '＾' = '^' from rfl]; decide
  by_cases k5 : d = '^'
  · subst k5; rw [show substChar pdfOpsTable '^' = '^' from rfl]; decide
  by_cases k6 : d = '−'
  · subst k6; rw [show substChar pdfOpsTable '−' = '—' from rfl]; decide
  by_cases k7 : d = '–'
  · subst k7; rw [show substChar pdfOpsTable '–' = '—' from rfl]; decide
  by_cases k8 : d = '―'
  · subst k8; rw [show substChar pdfOpsTable '―' = '—' from rfl]; decide
  by_cases k9 : d = 'ー'
  · subst k9; rw [show substChar pdfOpsTable 'ー' = '—' from rfl]; decide
  by_cases k10 : d = '-'
  · subst k10; rw [show substChar pdfOpsTable '-' = '—' from rfl]; decide
  by_cases k11 : d = '➖'
  · subst k11; rw [show substChar pdfOpsTable '➖' = '—' from rfl]; decide
  by_cases k12 : d = '＋'
  · subst k12; rw [show substChar pdfOpsTable '＋' = '+' from rfl]; decide
  rw [substChar_pdf_not_key k1 k2 k3 k4 k5 k6 k7 k8 k9 k10 k11 k12]
  exact h

theorem norm_ops_chars_of_no_marks {s : Str}
    (hm : ∀ c ∈ s, ¬(c = '\u0303' ∨ c = '\u0323')) :
    ∀ c ∈ norm_ops s, c = ' ' ∨
      (isPySpace c = false ∧
        ∃ c1 ∈ s, c = substChar pdfOpsTable (nfkcChar c1)) := by
  intro c hc
  rcases joinW_mem hc with h | ⟨w, hw, hcw⟩
  · exact Or.inl h
  · obtain ⟨-, h2⟩ := pyWords_spec w hw
    obtain ⟨hsp, hmem⟩ := h2 c hcw
    refine Or.inr ⟨hsp, ?_⟩
    obtain ⟨c0, hc0, rfl⟩ := List.mem_map.mp hmem
    have hfree : ∀ d ∈ s.map nfkcChar, ¬(d = '\u0303' ∨ d = '\u0323') := by
      intro d hd
      obtain ⟨c2, hc2, rfl⟩ := List.mem_map.mp hd
      exact nfkcChar_not_mark (hm c2 hc2)
    have hc1 : c0 ∈ s.map nfkcChar := by
      have hmem2 := mem_pyStrip hc0
      rwa [show nfkc s = composePass (s.map nfkcChar) from rfl,
        composePass_no_marks _ hfree] at hmem2
    obtain ⟨c1, hc1m, rfl⟩ := List.mem_map.mp hc1
    exact ⟨c1, hc1m, rfl⟩

theorem norm_ops_no_marks {s : Str}
    (hm : ∀ c ∈ s, ¬(c = '\u0303' ∨ c = '\u0323')) :
    ∀ c ∈ norm_ops s, ¬(c = '\u0303' ∨ c = '\u0323') := by
  intro c hc
  rcases norm_ops_chars_of_no_marks hm c hc with he | ⟨-, c1, hc1, he⟩
  · rw [he]; decide
  · rw [he]; exact substChar_pdf_not_mark (nfkcChar_not_mark (hm c1 hc1))

theorem norm_ops_idem_of_no_marks (x : Str)
    (hm : ∀ c ∈ x, ¬(c = '\u0303' ∨ c = '\u0323')) :
    norm_ops (norm_ops x) = norm_ops x := by
  have hchars := norm_ops_chars_of_no_marks hm
  have hyfree := norm_ops_no_marks hm
  have h1 : nfkc (norm_ops x) = norm_ops x := by
    have hfix : ∀ c ∈ norm_ops x, nfkcChar c = c := by
      intro c hc
      rcases hchars c hc with he | ⟨-, c1, -, he⟩
      · rw [he]; decide
      · rw [he]; exact nfkcChar_fix_subst (nfkcChar_idem c1)
    show composePass ((norm_ops x).map nfkcChar) = norm_ops x
    rw [map_eq_self_of hfix, composePass_no_marks _ hyfree]
  have h2 : applyTable pdfOpsTable (pyStrip (norm_ops x)) =
      pyStrip (norm_ops x) := by
    apply map_eq_self_of
    intro c hc
    rcases hchars c (mem_pyStrip hc) with he | ⟨-, c1, -, he⟩
    · rw [he]; rfl
    · rw [he]; exact substChar_pdf_idem (nfkcChar c1)
  conv_lhs => rw [norm_ops, norm_line]
  rw [h1, h2, pyWords_pyStrip, norm_ops]
  rw [pyWords_joinW fun w hw => ⟨(pyWords_spec w hw).1,
    fun c hc => ((pyWords_spec w hw).2 c hc).1⟩]

/-! ### `norm_ops` output contains no line boundary -/

theorem norm_ops_space_chars {s : Str} :
    ∀ c ∈ norm_ops s, c = ' ' ∨ isPySpace c = false := by
  intro c hc
  rcases joinW_mem hc with h | ⟨w, hw, hcw⟩
  · exact Or.inl h
  · exact Or.inr ((pyWords_spec w hw).2 c hcw).1

theorem norm_ops_no_break (s : Str) : ∀ c ∈ norm_ops s, isLineBreak c = false := by
  intro c hc
  rcases norm_ops_space_chars c hc with rfl | hsp
  · decide
  · cases hbr : isLineBreak c
    · rfl
    · rw [lineBreak_isPySpace hbr] at hsp; cases hsp

theorem splitlinesAux_cons {cur : Str} {a : Char} {as : Str} (ha' : a ≠ '\r') :
    splitlinesAux cur (a :: as) =
      if isLineBreak a then cur.reverse :: splitlinesAux [] as
      else splitlinesAux (a :: cur) as := by
  rw [splitlinesAux.eq_def]
  split
  · rename_i heq; simp at heq
  · rename_i heq
    injection heq with h3 h4
    exact absurd h3 ha'
  · rename_i h1 h2
    injection h2 with h3 h4
    subst h3; subst h4
    rfl

theorem splitlinesAux_no_break :
    ∀ (s cur : Str), (∀ c ∈ s, isLineBreak c = false) →
      splitlinesAux cur s =
        if cur.isEmpty && s.isEmpty then [] else [cur.reverse ++ s] := by
  intro s
  induction s with
  | nil =>
    intro cur h
    show (if cur.isEmpty then [] else [cur.reverse]) = _
    by_cases hce : cur.isEmpty = true <;> simp [hce]
  | cons a as ih =>
    intro cur h
    have ha : isLineBreak a = false := h a (List.mem_cons_self ..)
    have ha' : a ≠ '\r' := by
      intro he; subst he; exact absurd ha (by decide)
    rw [splitlinesAux_cons ha', if_neg (by simp [ha]),
      ih (a :: cur) fun x hx => h x (List.mem_cons_of_mem _ hx)]
    simp

theorem pySplitlines_no_break {s : Str} (h : ∀ c ∈ s, isLineBreak c = false) :
    pySplitlines s = if s.isEmpty then [] else [s] := by
  unfold pySplitlines
  rw [splitlinesAux_no_break s [] h]
  simp

theorem textLines_length_le_one (texts : List Str) :
    (textLines texts).length ≤ 1 := by
  unfold textLines
  rw [List.length_map,
    pySplitlines_no_break (norm_ops_no_break (List.intercalate (ofStr "\n") texts))]
  by_cases h : (norm_ops (List.intercalate (ofStr "\n") texts)).isEmpty = true <;>
    simp [h]

/-! ### Behaviour of `flush` -/

theorem flushF_resets (s : MState) :
    (flushF s).buf = [] ∧ (flushF s).paren_balance = 0 := by
  unfold flushF
  exact ⟨rfl, rfl⟩

theorem flushF_empty_buf {st : MState} (h : st.buf = []) :
    flushF st = { st with buf := [], paren_balance := 0 } := by
  obtain ⟨sig, seen, cq, cd, buf, bal, lb, ws, mt⟩ := st
  have hb : buf = [] := h
  subst hb
  cases cq with
  | none => rfl
  | some q =>
    simp only [flushF]
    rw [if_neg fun hc => hc.2 rfl]

theorem alookup_append_of_missing {l : List (Str × Str)} {k v : Str}
    (h : ∀ p ∈ l, ¬(p.1 = k)) : alookup (l ++ [(k, v)]) k = some v := by
  induction l with
  | nil => simp [alookup]
  | cons a as ih =>
    show alookup (a :: (as ++ [(k, v)])) k = some v
    unfold alookup
    rw [if_neg (h a (List.mem_cons_self ..))]
    exact ih fun p hp => h p (List.mem_cons_of_mem _ hp)

theorem alookup_upsert (m : List (Str × Str)) (k v : Str) :
    alookup (upsert m k v) k = some v := by
  induction m with
  | nil => simp [upsert, alookup]
  | cons a as ih =>
    by_cases hak : a.1 = k
    · have hany : (a :: as).any (fun p => decide (p.1 = k)) = true := by
        simp [List.any_cons, hak]
      unfold upsert
      rw [if_pos hany]
      show alookup ((if a.1 = k then (k, v) else a) ::
        as.map fun p => if p.1 = k then (k, v) else p) k = some v
      rw [if_pos hak]
      unfold alookup
      rw [if_pos rfl]
    · by_cases hany2 : as.any (fun p => decide (p.1 = k)) = true
      · have hany : (a :: as).any (fun p => decide (p.1 = k)) = true := by
          simp [List.any_cons, hany2]
      
        unfold upsert
        rw [if_pos hany]
        show alookup ((if a.1 = k then (k, v) else a) ::
          as.map fun p => if p.1 = k then (k, v) else p) k = some v
        rw [if_neg hak]
        unfold alookup
        rw [if_neg hak]
        unfold upsert at ih
        rw [if_pos hany2] at ih
        exact ih
      · have hany : ¬((a :: as).any (fun p => decide (p.1 = k)) = true) := by
          simp only [List.any_cons, Bool.or_eq_true, decide_eq_true_eq]
          rintro (h | h)
          · exact hak h
          · exact hany2 h
        unfold upsert
        rw [if_neg hany]
        apply alookup_append_of_missing
        intro p hp hpk
        apply hany
        simp only [List.any_cons, Bool.or_eq_true, decide_eq_true_eq]
        rcases List.mem_cons.mp hp with rfl | hp
        · exact Or.inl hpk
        · right
          rw [List.any_eq_true]
          exact ⟨p, hp, by simpa using hpk⟩

/-- C4: if `flush` runs with an active (truthy) id, a buffer whose
stripped join re-normalizes to a non-empty expression, and a nonzero
paren balance, then exactly one warning naming that id with the first 60
characters of the expression is appended, the expression is still
committed to the expression map under that id, and (for every state)
`flush` leaves the buffer empty and the paren balance zero. -/
theorem c4_flush_commits_and_warns (st : MState) (q : Str)
    (hq : st.current_q = some q) (hqne : q ≠ [])
    (hexpr : norm_ops (joinW ((st.buf.map pyStrip).filter (· ≠ []))) ≠ [])
    (hbal : st.paren_balance ≠ 0) :
    (flushF st).warnings = st.warnings ++
      [parenWarn q (norm_ops (joinW ((st.buf.map pyStrip).filter (· ≠ []))))] ∧
    alookup (flushF st).logic_blocks q =
      some (norm_ops (joinW ((st.buf.map pyStrip).filter (· ≠ [])))) ∧
    (∀ s : MState, (flushF s).buf = [] ∧ (flushF s).paren_balance = 0) := by
  have hbuf : st.buf ≠ [] := by
    intro hb
    rw [hb] at hexpr
    exact hexpr rfl
  refine ⟨?_, ?_, flushF_resets⟩
  · simp only [flushF, hq]
    rw [if_pos ⟨hqne, hbuf⟩, if_pos hexpr, if_pos hbal]
  · simp only [flushF, hq]
    rw [if_pos ⟨hqne, hbuf⟩, if_pos hexpr, if_pos hbal]
    exact alookup_upsert ..

/-- Witness for C4 at a concrete state: id `Q1`, buffer `["(04E"]`,
paren balance `1`. -/
theorem c4_witness :
    (flushF ⟨[], [], some (ofStr "Q1"), [], [ofStr "(04E"], 1, [], [], []⟩).warnings =
      [] ++ [parenWarn (ofStr "Q1")
        (norm_ops (joinW (([ofStr "(04E"].map pyStrip).filter (· ≠ []))))] ∧
    alookup (flushF ⟨[], [], some (ofStr "Q1"), [], [ofStr "(04E"], 1, [], [], []⟩).logic_blocks
        (ofStr "Q1") =
      some (norm_ops (joinW (([ofStr "(04E"].map pyStrip).filter (· ≠ [])))) ∧
    (∀ s : MState, (flushF s).buf = [] ∧ (flushF s).paren_balance = 0) :=
  c4_flush_commits_and_warns
    ⟨[], [], some (ofStr "Q1"), [], [ofStr "(04E"], 1, [], [], []⟩
    (ofStr "Q1") rfl (by decide) (by decide) (by decide)

/-- C2 counterexample: `_norm_ops` is not idempotent. On the input
U+2228 LOGICAL OR followed by U+0303 COMBINING TILDE, the first pass
leaves the combining tilde after the substituted `v` (NFKC has nothing to
compose with U+2228), but the second pass's NFKC canonically composes
that `v` with the tilde into U+1E7D, so the output changes again. -/
theorem c2_counterexample :
    norm_ops (norm_ops (ofStr "∨\u0303")) ≠ norm_ops (ofStr "∨\u0303") := by
  decide

/-- C2 amended: `_norm_ops` is idempotent on every string containing
neither U+0303 COMBINING TILDE nor U+0323 COMBINING DOT BELOW (the only
combining marks that canonically compose with a character the
substitution table can produce), and in a single pass a full-width `Ｖ`
normalizes to `v`, a full-width `＾` to ASCII `^`, and a hyphen-minus to
the canonical em-dash, also when all three share a line. -/
theorem c2_idempotent_on_mark_free :
    (∀ x : Str, (∀ c ∈ x, ¬(c = '\u0303' ∨ c = '\u0323')) →
      norm_ops (norm_ops x) = norm_ops x) ∧
    norm_ops (ofStr "Ｖ ＾ -") = ofStr "v ^ —" ∧
    norm_ops (ofStr "Ｖ") = ofStr "v" ∧
    norm_ops (ofStr "＾") = ofStr "^" ∧
    norm_ops (ofStr "-") = ofStr "—" :=
  ⟨norm_ops_idem_of_no_marks, by decide, by decide, by decide, by decide⟩

/-- Witness for the amended C2 at the concrete mark-free input
`"Ｖ ＾ -"`. -/
theorem c2_witness :
    norm_ops (norm_ops (ofStr "Ｖ ＾ -")) = norm_ops (ofStr "Ｖ ＾ -") :=
  c2_idempotent_on_mark_free.1 (ofStr "Ｖ ＾ -") (by decide)

/-- C10: `_norm_ops` output never contains a newline (its final
whitespace collapse replaces every whitespace character, line breaks
included, by single spaces), so the line list `process` builds from the
`_norm_ops`-normalized joined text has at most one element: the state
machine never sees a second line, a blank line, or any original line
boundary. -/
theorem c10_norm_ops_flattens_lines :
    (∀ s : Str, ('\n') ∉ norm_ops s) ∧
    (∀ texts : List Str, (textLines texts).length ≤ 1) := by
  constructor
  · intro s h
    have := norm_ops_no_break s _ h
    exact absurd this (by decide)
  · exact textLines_length_le_one

/-- C9: when the OCR capability is absent, `process` raises the fatal
`RuntimeError` before touching any page, record, expression, or
warning; the condition is a distinct error value, never a warning. -/
theorem c9_missing_ocr_is_fatal (p : SimplePDFProcessor) (pages : List Str)
    (cancel : Option (Nat → Bool)) :
    process p false pages cancel = Except.error ocrMissingMsg := rfl

set_option maxHeartbeats 2000000 in
/-- C1 (evaluation of the code at the spec scenario): for the three-line
page `"Q101 右内タンピングユニット下降" / "04E ^ 351 ^" / "383"`, the
whole document is collapsed to one line by `_norm_ops`, so `process`
returns a single record whose description is the entire collapsed tail
`"右内タンピングユニット下降 04E ^ 351 ^ 383"` and commits NO expression
for `Q101` — not the expression `"04E ^ 351 ^ 383"` and description
`"右内タンピングユニット下降"` that the claim (and the code's own
pattern-2 docstring) require. -/
theorem c1_code_eval :
    process ⟨[], []⟩ true
      [ofStr "Q101 右内タンピングユニット下降\n04E ^ 351 ^\n383"] none =
    Except.ok
      ([⟨ofStr "Q101", SignalType.OUTPUT,
         ofStr "右内タンピングユニット下降 04E ^ 351 ^ 383",
         [], [], [], ofStr "Q101", []⟩],
       ⟨[], []⟩) := rfl

set_option maxHeartbeats 2000000 in
/-- C6: the two-line input `"Q101 = 04E ^ 351 ^ 383"` plus a blank line
yields exactly one record (id `Q101`, kind OUTPUT), the expression map
`{Q101 ↦ "04E ^ 351 ^ 383"}`, and no warnings. -/
theorem c6_equation_line_self_contained :
    process ⟨[], []⟩ true [ofStr "Q101 = 04E ^ 351 ^ 383\n"] none =
    Except.ok
      ([⟨ofStr "Q101", SignalType.OUTPUT, ofStr "(OCR取り込み)",
         [], [], [], ofStr "Q101", []⟩],
       ⟨[(ofStr "Q101", ofStr "04E ^ 351 ^ 383")], []⟩) := rfl

/-- C8 counterexample: the two substitution tables are not extensionally
equal — on the heavy minus sign U+2796 the OCR path yields an em-dash
while the CSV path leaves it untouched. -/
theorem c8_counterexample :
    norm_expr (ofStr "➖") ≠ norm_ops (ofStr "➖") := by decide

theorem nfkcChar_eq_heavy_minus {c : Char} (h : nfkcChar c = '➖') :
    c = '➖' := by
  by_cases h1 : 0xFF01 ≤ c.toNat ∧ c.toNat ≤ 0xFF5E
  · rw [nfkcChar, if_pos h1] at h
    have ht : (Char.ofNat (c.toNat - 0xFEE0)).toNat = c.toNat - 0xFEE0 :=
      char_ofNat_toNat (by omega) (by omega)
    rw [h] at ht
    have hv : ('➖' : Char).toNat = 0x2796 := by decide
    rw [hv] at ht
    omega
  · by_cases h2 : c = '　'
    · subst h2
      rw [show nfkcChar '　' = ' ' from by decide] at h
      exact absurd h (by decide)
    · rwa [nfkcChar, if_neg h1, if_neg h2] at h

/-- C8 amended: `_norm_expr` and `_norm_ops` agree on every string that
does not contain the heavy minus sign U+2796 (the single entry present
only in the OCR path's table). -/
theorem c8_tables_agree_without_heavy_minus (x : Str) (h : '➖' ∉ x) :
    norm_expr x = norm_ops x := by
  have hmap : applyTable csvOpsTable (csv_norm x) =
      applyTable pdfOpsTable (csv_norm x) := by
    apply List.map_congr_left
    intro c hc
    apply substChar_pdf_csv_agree
    intro he
    subst he
    rcases mem_composePass (mem_pyStrip hc) with hmem | he2 | he2
    · obtain ⟨c1, hc1, heq⟩ := List.mem_map.mp hmem
      exact h (nfkcChar_eq_heavy_minus heq ▸ hc1)
    · exact absurd he2 (by decide)
    · exact absurd he2 (by decide)
  unfold norm_expr norm_ops
  rw [hmap]
  rfl

/-- Witness for the amended C8 at the concrete input `"A − B"`. -/
theorem c8_witness :
    norm_expr (ofStr "A − B") = norm_ops (ofStr "A − B") :=
  c8_tables_agree_without_heavy_minus (ofStr "A − B") (by decide)

/-! ### Cancellation (C3) -/

theorem collectPages_none : ∀ (ps : List Str) (i : Nat),
    collectPages none i ps = ps := by
  intro ps
  induction ps with
  | nil => intro i; rfl
  | cons p ps ih =>
    intro i
    show p :: collectPages none (i + 1) ps = p :: ps
    rw [ih]

theorem collectPages_cancel_at (cb : Nat → Bool) :
    ∀ (ps : List Str) (n i : Nat), n ≤ ps.length →
      (∀ j, j < n → cb (i + j) = false) →
      (n < ps.length → cb (i + n) = true) →
      collectPages (some cb) i ps = ps.take n := by
  intro ps
  induction ps with
  | nil =>
    intro n i hn _ _
    have h0 : n = 0 := Nat.le_zero.mp (by simpa using hn)
    subst h0
    rfl
  | cons p ps ih =>
    intro n i hn hfalse htrue
    cases n with
    | zero =>
      have hc : cb i = true := by
        have := htrue (by simp)
        simpa using this
      show (if cb i = true then [] else _) = []
      rw [if_pos hc]
    | succ m =>
      have hc : cb i = false := by
        have := hfalse 0 (by omega)
        simpa using this
      show (if cb i = true then [] else p :: collectPages (some cb) (i + 1) ps) =
        p :: ps.take m
      rw [if_neg (by simp [hc])]
      rw [ih m (i + 1) (by simpa using hn)
        (fun j hj => by have := hfalse (j + 1) (by omega); rwa [show i + (j + 1) = i + 1 + j by omega] at this)
        (fun hm => by have := htrue (by simpa using Nat.succ_lt_succ hm); rwa [show i + (m + 1) = i + 1 + m by omega] at this)]

/-- C3: if the cancellation predicate is false on every poll before page
`k+1` and first true when polled before page `k+1` (`k < n`), `process`
returns exactly the result of processing only the first `k` pages: no
content of page `k+1` or later reaches any output. -/
theorem c3_cancellation_prefix (p : SimplePDFProcessor) (pages : List Str)
    (cb : Nat → Bool) (k : Nat) (hk : k < pages.length)
    (hbefore : ∀ j, j < k → cb j = false) (hat : cb k = true) :
    process p true pages (some cb) = process p true (pages.take k) none := by
  have h1 : collectPages (some cb) 0 pages = pages.take k := by
    apply collectPages_cancel_at cb pages k 0 (le_of_lt hk)
    · intro j hj
      simpa using hbefore j hj
    · intro _
      simpa using hat
  have h2 : collectPages none 0 (pages.take k) = pages.take k :=
    collectPages_none ..
  unfold process
  rw [h1, h2]

/-- Witness for C3: polling sequence false, true on a two-page document
(`k = 1`). -/
theorem c3_witness :
    process ⟨[], []⟩ true [ofStr "A = 1", ofStr "B = 2"]
      (some fun i => decide (1 ≤ i)) =
    process ⟨[], []⟩ true ([ofStr "A = 1", ofStr "B = 2"].take 1) none :=
  c3_cancellation_prefix ⟨[], []⟩ [ofStr "A = 1", ofStr "B = 2"]
    (fun i => decide (1 ≤ i)) 1 (by decide) (by decide) (by decide)

/-! ### Record uniqueness (C5) -/

/-- Insert at the back unless already present (the effect of the
`seen`-guarded registration). -/
def insertIfNew (acc : List Str) (a : Str) : List Str :=
  if a ∈ acc then acc else acc ++ [a]

/-- First-occurrence deduplication of a list of ids; `firstDedup
st.matched` is the list of distinct ids among all equation-line or
header-line matches, in first-match order. -/
def firstDedup (l : List Str) : List Str := l.foldl insertIfNew []

theorem firstDedup_append (l : List Str) (a : Str) :
    firstDedup (l ++ [a]) = insertIfNew (firstDedup l) a := by
  unfold firstDedup
  rw [List.foldl_append]
  rfl

/-- The machine invariant: record ids mirror `seen`, `seen` is duplicate
free and is exactly the first-occurrence dedup of all matched ids, and
every record id is non-empty. -/
def Inv (st : MState) : Prop :=
  (st.signals.map fun r => r.signal_id) = st.seen ∧
  st.seen.Nodup ∧
  st.seen = firstDedup st.matched ∧
  ∀ r ∈ st.signals, r.signal_id ≠ []

theorem inv_of_core {st st' : MState} (h : Inv st)
    (h1 : st'.signals = st.signals) (h2 : st'.seen = st.seen)
    (h3 : st'.matched = st.matched) : Inv st' := by
  obtain ⟨a, b, c, d⟩ := h
  refine ⟨?_, ?_, ?_, ?_⟩
  · rw [h1, h2, a]
  · rw [h2]; exact b
  · rw [h2, h3]; exact c
  · rw [h1]; exact d

theorem flushF_core (st : MState) :
    (flushF st).signals = st.signals ∧ (flushF st).seen = st.seen ∧
    (flushF st).matched = st.matched := by
  rcases hcq : st.current_q with _ | q
  · simp only [flushF, hcq]
    exact ⟨trivial, trivial, trivial⟩
  · simp only [flushF, hcq]
    by_cases h1 : q ≠ [] ∧ st.buf ≠ []
    · rw [if_pos h1]
      by_cases h2 : norm_ops (joinW ((st.buf.map pyStrip).filter (· ≠ []))) ≠ []
      · rw [if_pos h2]
        exact ⟨rfl, rfl, rfl⟩
      · rw [if_neg h2]
        exact ⟨rfl, rfl, rfl⟩
    · rw [if_neg h1]
      exact ⟨rfl, rfl, rfl⟩

theorem flushF_inv {st : MState} (h : Inv st) : Inv (flushF st) :=
  inv_of_core h (flushF_core st).1 (flushF_core st).2.1 (flushF_core st).2.2

theorem register_inv {st : MState} {sid desc : Str} (h : Inv st)
    (hs : sid ≠ []) : Inv (register st sid desc) := by
  obtain ⟨h1, h2, h3, h4⟩ := h
  unfold register
  by_cases hmem : sid ∈ st.seen
  · rw [if_pos hmem]
    refine ⟨h1, h2, ?_, h4⟩
    show st.seen = firstDedup (st.matched ++ [sid])
    rw [firstDedup_append, ← h3, insertIfNew, if_pos hmem]
  · rw [if_neg hmem]
    refine ⟨?_, ?_, ?_, ?_⟩
    · show (st.signals ++ [mkSignal sid desc]).map (fun r => r.signal_id) =
        st.seen ++ [sid]
      rw [List.map_append, h1]
      rfl
    · show (st.seen ++ [sid]).Nodup
      rw [List.nodup_append]
      refine ⟨h2, List.nodup_singleton _, ?_⟩
      intro a ha hb
      rw [List.mem_singleton] at hb
      subst hb
      exact hmem ha
    · show st.seen ++ [sid] = firstDedup (st.matched ++ [sid])
      rw [firstDedup_append, ← h3, insertIfNew, if_neg hmem]
    · intro r hr
      rcases List.mem_append.mp hr with hr | hr
      · exact h4 r hr
      · rw [List.mem_singleton] at hr
        subst hr
        exact hs

theorem isReAlpha_alnum {c : Char} (h : isReAlpha c = true) :
    isReAlnum c = true := by
  simp only [isReAlnum, Bool.or_eq_true]
  exact Or.inl h

theorem eqMatch_sid_ne_nil {l g1 g2 g3 : Str}
    (he : eqMatch l = some (g1, g2, g3)) :
    normalize_id (g1 ++ g2) ≠ [] := by
  obtain ⟨⟨hne1, ha1⟩, hne2, ha2⟩ := eqMatch_groups he
  apply normalize_id_ne_nil
  · simp [hne1]
  · intro c hc
    rcases List.mem_append.mp hc with hc | hc
    · exact isReAlpha_alnum (ha1 c hc)
    · exact ha2 c hc

theorem qheadMatch_sid_ne_nil {l h1 h2 : Str}
    (hq : qheadMatch l = some (h1, h2)) : normalize_id h1 ≠ [] := by
  obtain ⟨hne, ha⟩ := qheadMatch_groups hq
  exact normalize_id_ne_nil hne ha

theorem stepLine_inv {st : MState} (h : Inv st) (l : Str) :
    Inv (stepLine st l) := by
  unfold stepLine
  by_cases hblank : pyStrip l = []
  · rw [if_pos hblank]
    by_cases hc1 : optTruthy st.current_q = true ∧ st.paren_balance > 0
    · rw [if_pos hc1]
      exact h
    · rw [if_neg hc1]
      exact inv_of_core (flushF_inv h) rfl rfl rfl
  · rw [if_neg hblank]
    rcases heq : eqMatch l with _ | ⟨g1, g2, g3⟩
    · simp only [heq]
      rcases hqh : qheadMatch l with _ | ⟨q1, q2⟩
      · simp only [hqh]
        by_cases hc2 : optTruthy st.current_q = true ∧ exprMatch l = true
        · rw [if_pos hc2]
          exact inv_of_core h rfl rfl rfl
        · rw [if_neg hc2]
          by_cases hc3 : optTruthy st.current_q = true
          · rw [if_pos hc3]
            by_cases hc4 : st.paren_balance > 0
            · rw [if_pos hc4]
              exact inv_of_core h rfl rfl rfl
            · rw [if_neg hc4]
              exact inv_of_core (flushF_inv h) rfl rfl rfl
          · rw [if_neg hc3]
            exact h
      · simp only [hqh]
        exact register_inv
          (inv_of_core (flushF_inv h) rfl rfl rfl) (qheadMatch_sid_ne_nil hqh)
    · simp only [heq]
      exact inv_of_core
        (register_inv (flushF_inv h) (eqMatch_sid_ne_nil heq)) rfl rfl rfl

theorem foldl_stepLine_inv :
    ∀ (lines : List Str) {st : MState}, Inv st →
      Inv (lines.foldl stepLine st) := by
  intro lines
  induction lines with
  | nil => intro st h; exact h
  | cons l ls ih => intro st h; exact ih (stepLine_inv h l)

theorem assemble_inv {st : MState} (h : Inv st) (lines : List Str) :
    Inv (assemble st lines) := flushF_inv (foldl_stepLine_inv lines h)

theorem initState_inv (lb : List (Str × Str)) (ws : List Str) :
    Inv (initState lb ws) := by
  refine ⟨rfl, List.nodup_nil, rfl, ?_⟩
  intro r hr
  simp [initState] at hr

/-- C5: every successful `process` run returns records with pairwise
distinct, non-empty ids, and the number of records equals the number of
distinct ids registered by equation-line or header-line matches (the
first-occurrence dedup of the machine's matched-id trace). -/
theorem c5_records_unique_nonempty (p : SimplePDFProcessor)
    (pages : List Str) (cancel : Option (Nat → Bool))
    (sigs : List SignalInfo) (p' : SimplePDFProcessor)
    (h : process p true pages cancel = Except.ok (sigs, p')) :
    (sigs.map fun r => r.signal_id).Nodup ∧
    (∀ r ∈ sigs, r.signal_id ≠ []) ∧
    sigs.length =
      (firstDedup (assemble (initState p.logic_blocks p.warnings)
        (textLines (collectPages cancel 0 pages))).matched).length := by
  have hs : sigs = (assemble (initState p.logic_blocks p.warnings)
      (textLines (collectPages cancel 0 pages))).signals := by
    unfold process at h
    rw [if_pos rfl, Except.ok.injEq, Prod.mk.injEq] at h
    exact h.1.symm
  obtain ⟨h1, h2, h3, h4⟩ := assemble_inv
    (initState_inv p.logic_blocks p.warnings)
    (textLines (collectPages cancel 0 pages))
  subst hs
  refine ⟨by rw [h1]; exact h2, h4, ?_⟩
  rw [← h3, ← h1, List.length_map]

/-! ### Re-running the engine (C7)

Because `_norm_ops` flattens the whole document to at most one line, the
per-call parser state starts fresh and the one processed line can only
touch the instance accumulators through a single dictionary assignment;
re-running on the same input therefore reproduces the same result. -/

theorem flushF_init (lb : List (Str × Str)) (ws : List Str) :
    flushF (initState lb ws) = initState lb ws := rfl

theorem stepLine_init_blank (lb : List (Str × Str)) (ws : List Str) (l : Str)
    (h : pyStrip l = []) :
    stepLine (initState lb ws) l = initState lb ws := by
  unfold stepLine
  rw [if_pos h]
  rfl

theorem stepLine_init_eq (lb : List (Str × Str)) (ws : List Str) (l : Str)
    (g1 g2 g3 : Str) (hs : ¬(pyStrip l = []))
    (he : eqMatch l = some (g1, g2, g3)) :
    stepLine (initState lb ws) l =
      { initState lb ws with
          signals := [mkSignal (normalize_id (g1 ++ g2)) ocrPlaceholder],
          seen := [normalize_id (g1 ++ g2)],
          matched := [normalize_id (g1 ++ g2)],
          logic_blocks := upsert lb (normalize_id (g1 ++ g2))
            (norm_ops (pyStrip g3)),
          current_q := none } := by
  unfold stepLine
  rw [if_neg hs, he]
  rfl

theorem stepLine_init_qhead (lb : List (Str × Str)) (ws : List Str) (l : Str)
    (q1 q2 : Str) (hs : ¬(pyStrip l = [])) (he : eqMatch l = none)
    (hq : qheadMatch l = some (q1, q2)) :
    stepLine (initState lb ws) l =
      { initState lb ws with
          signals := [mkSignal (normalize_id q1)
            (if norm_line q2 = [] then ocrPlaceholder else norm_line q2)],
          seen := [normalize_id q1],
          matched := [normalize_id q1],
          current_q := some (normalize_id q1),
          current_desc := norm_line q2 } := by
  unfold stepLine
  rw [if_neg hs, he, hq]
  rfl

theorem stepLine_init_none (lb : List (Str × Str)) (ws : List Str) (l : Str)
    (hs : ¬(pyStrip l = [])) (he : eqMatch l = none)
    (hq : qheadMatch l = none) :
    stepLine (initState lb ws) l = initState lb ws := by
  unfold stepLine
  rw [if_neg hs, he, hq]
  rfl

theorem assemble_init_single_blank (lb : List (Str × Str)) (ws : List Str)
    (l : Str) (h : pyStrip l = []) :
    assemble (initState lb ws) [l] = initState lb ws := by
  show flushF (stepLine (initState lb ws) l) = _
  rw [stepLine_init_blank lb ws l h]
  exact flushF_init lb ws

theorem assemble_init_single_none (lb : List (Str × Str)) (ws : List Str)
    (l : Str) (hs : ¬(pyStrip l = [])) (he : eqMatch l = none)
    (hq : qheadMatch l = none) :
    assemble (initState lb ws) [l] = initState lb ws := by
  show flushF (stepLine (initState lb ws) l) = _
  rw [stepLine_init_none lb ws l hs he hq]
  exact flushF_init lb ws

theorem assemble_init_single_eq (lb : List (Str × Str)) (ws : List Str)
    (l : Str) (g1 g2 g3 : Str) (hs : ¬(pyStrip l = []))
    (he : eqMatch l = some (g1, g2, g3)) :
    assemble (initState lb ws) [l] =
      { initState lb ws with
          signals := [mkSignal (normalize_id (g1 ++ g2)) ocrPlaceholder],
          seen := [normalize_id (g1 ++ g2)],
          matched := [normalize_id (g1 ++ g2)],
          logic_blocks := upsert lb (normalize_id (g1 ++ g2))
            (norm_ops (pyStrip g3)),
          current_q := none } := by
  show flushF (stepLine (initState lb ws) l) = _
  rw [stepLine_init_eq lb ws l g1 g2 g3 hs he]
  rfl

theorem assemble_init_single_qhead (lb : List (Str × Str)) (ws : List Str)
    (l : Str) (q1 q2 : Str) (hs : ¬(pyStrip l = []))
    (he : eqMatch l = none) (hq : qheadMatch l = some (q1, q2)) :
    assemble (initState lb ws) [l] =
      { initState lb ws with
          signals := [mkSignal (normalize_id q1)
            (if norm_line q2 = [] then ocrPlaceholder else norm_line q2)],
          seen := [normalize_id q1],
          matched := [normalize_id q1],
          current_q := some (normalize_id q1),
          current_desc := norm_line q2 } := by
  show flushF (stepLine (initState lb ws) l) = _
  rw [stepLine_init_qhead lb ws l q1 q2 hs he hq, flushF_empty_buf rfl]
  rfl

theorem second_run_core (L : List Str) (hL : L.length ≤ 1) :
    (assemble (initState
        (assemble (initState [] []) L).logic_blocks
        (assemble (initState [] []) L).warnings) L).signals =
      (assemble (initState [] []) L).signals ∧
    (assemble (initState
        (assemble (initState [] []) L).logic_blocks
        (assemble (initState [] []) L).warnings) L).logic_blocks =
      (assemble (initState [] []) L).logic_blocks ∧
    (assemble (initState
        (assemble (initState [] []) L).logic_blocks
        (assemble (initState [] []) L).warnings) L).warnings =
      (assemble (initState [] []) L).warnings := by
  rcases L with _ | ⟨l, _ | ⟨l2, ls⟩⟩
  · exact ⟨rfl, rfl, rfl⟩
  · by_cases hblank : pyStrip l = []
    · rw [assemble_init_single_blank [] [] l hblank,
        assemble_init_single_blank _ _ l hblank]
      exact ⟨rfl, rfl, rfl⟩
    · rcases heq : eqMatch l with _ | ⟨g1, g2, g3⟩
      · rcases hqh : qheadMatch l with _ | ⟨q1, q2⟩
        · rw [assemble_init_single_none [] [] l hblank heq hqh,
            assemble_init_single_none _ _ l hblank heq hqh]
          exact ⟨rfl, rfl, rfl⟩
        · rw [assemble_init_single_qhead [] [] l q1 q2 hblank heq hqh,
            assemble_init_single_qhead _ _ l q1 q2 hblank heq hqh]
          exact ⟨rfl, rfl, rfl⟩
      · rw [assemble_init_single_eq [] [] l g1 g2 g3 hblank heq,
          assemble_init_single_eq _ _ l g1 g2 g3 hblank heq]
        refine ⟨rfl, ?_, rfl⟩
        show upsert (upsert [] (normalize_id (g1 ++ g2)) (norm_ops (pyStrip g3)))
            (normalize_id (g1 ++ g2)) (norm_ops (pyStrip g3)) =
          upsert [] (normalize_id (g1 ++ g2)) (norm_ops (pyStrip g3))
        simp [upsert]
  · exfalso
    simp only [List.length_cons] at hL
    omega

/-- C7: creating a fresh processor and calling `process` twice on the
same input yields identical record lists and an identical final instance
state (expression map and warnings, order and text included): no parser
or accumulator effect of the first run changes the second run's result. -/
theorem c7_rerun_idempotent (pages : List Str) (cancel : Option (Nat → Bool))
    (s1 s2 : List SignalInfo) (p1 p2 : SimplePDFProcessor)
    (h1 : process ⟨[], []⟩ true pages cancel = Except.ok (s1, p1))
    (h2 : process p1 true pages cancel = Except.ok (s2, p2)) :
    s2 = s1 ∧ p2 = p1 := by
  unfold process at h1 h2
  rw [if_pos rfl, Except.ok.injEq, Prod.mk.injEq] at h1 h2
  obtain ⟨hs1, hp1⟩ := h1
  have hlb1 : p1.logic_blocks = (assemble (initState [] [])
      (textLines (collectPages cancel 0 pages))).logic_blocks := by
    rw [← hp1]
  have hws1 : p1.warnings = (assemble (initState [] [])
      (textLines (collectPages cancel 0 pages))).warnings := by
    rw [← hp1]
  rw [hlb1, hws1] at h2
  obtain ⟨hs2, hp2⟩ := h2
  obtain ⟨hsig, hlb, hws⟩ := second_run_core
    (textLines (collectPages cancel 0 pages))
    (textLines_length_le_one (collectPages cancel 0 pages))
  constructor
  · rw [← hs2, ← hs1, hsig]
  · rw [← hp2, ← hp1, hlb, hws]

/-- Witness for C7 at the one-page input `"Q101 = A"` (both runs return
the same record and leave the same instance state). -/
theorem c7_witness :
    ([⟨ofStr "Q101", SignalType.OUTPUT, ofStr "(OCR取り込み)", [], [], [],
       ofStr "Q101", []⟩] : List SignalInfo) =
      [⟨ofStr "Q101", SignalType.OUTPUT, ofStr "(OCR取り込み)", [], [], [],
        ofStr "Q101", []⟩] ∧
    (⟨[(ofStr "Q101", ofStr "A")], []⟩ : SimplePDFProcessor) =
      ⟨[(ofStr "Q101", ofStr "A")], []⟩ :=
  c7_rerun_idempotent [ofStr "Q101 = A"] none _ _ _ _ rfl rfl

set_option maxHeartbeats 2000000 in
/-- Witness for C5 at the one-page input `"Q101 = A ^ B"`. -/
theorem c5_witness :
    ((([⟨ofStr "Q101", SignalType.OUTPUT, ofStr "(OCR取り込み)", [], [], [],
        ofStr "Q101", []⟩] : List SignalInfo).map fun r => r.signal_id).Nodup ∧
     (∀ r ∈ ([⟨ofStr "Q101", SignalType.OUTPUT, ofStr "(OCR取り込み)", [], [],
        [], ofStr "Q101", []⟩] : List SignalInfo), r.signal_id ≠ []) ∧
     ([⟨ofStr "Q101", SignalType.OUTPUT, ofStr "(OCR取り込み)", [], [], [],
        ofStr "Q101", []⟩] : List SignalInfo).length =
       (firstDedup (assemble (initState
           (⟨[], []⟩ : SimplePDFProcessor).logic_blocks
           (⟨[], []⟩ : SimplePDFProcessor).warnings)
         (textLines (collectPages none 0 [ofStr "Q101 = A ^ B"]))).matched).length) :=
  c5_records_unique_nonempty ⟨[], []⟩ [ofStr "Q101 = A ^ B"] none
    [⟨ofStr "Q101", SignalType.OUTPUT, ofStr "(OCR取り込み)", [], [], [],
      ofStr "Q101", []⟩]
    ⟨[(ofStr "Q101", ofStr "A ^ B")], []⟩ rfl

end MtSignal
